import Mathlib

/-!
Verification of the lazy tree search-and-reveal engine of the repositories
view (src/views/repositoriesView.ts) and its surrounding specification.

The query builders (findBranch, findCommit, findContributor, findRemote,
findStash, findTag, findWorktree and the reveal operations) are translated
directly from the source file.  The parts of the program that the source
tree does not include (the generic traversal engine ViewBase.findNode, the
node classes with their id schemes, the reveal orchestrator and the gate
decorator) are modelled from the specification; each such definition is
marked in its doc comment.
-/

/-- Kinds of tree nodes, mirroring the node classes the source dispatches on
with instanceof checks. -/
inductive NodeKind where
  | repositories
  | repository
  | branches
  | branch
  | branchOrTagFolder
  | remotes
  | remote
  | tags
  | tag
  | stashes
  | stash
  | contributors
  | contributor
  | worktrees
  | worktree
  | commit
deriving DecidableEq, Repr

/-- The branch payload of a branch node: n.branch.name and n.branch.ref. -/
structure BranchInfo where
  name : String
  ref : String
deriving DecidableEq, Repr

/-- Modelled from the spec: the data carried by a tree node, as far as the
matchers and canTraverse predicates of the repositories view consult it.
The node classes themselves are not part of the source tree.  The field
remote holds n.remote.name for a remote node, commit holds n.commit.ref for
a commit row, tag holds n.tag.ref for a tag node. -/
structure NData where
  id : String
  kind : NodeKind
  branch : Option BranchInfo := none
  remote : Option String := none
  commit : Option String := none
  tag : Option String := none
deriving DecidableEq, Repr

/-- Modelled from the spec: a lazily materialized tree node.  The first list
holds the children that are materialized by a plain children() production;
the second list holds the children that only become available after a
pagination (load more) request. -/
inductive VNode : Type where
  | node (data : NData) (loaded : List VNode) (more : List VNode) : VNode

def VNode.data : VNode → NData
  | .node d _ _ => d

def VNode.loaded : VNode → List VNode
  | .node _ cs _ => cs

def VNode.more : VNode → List VNode
  | .node _ _ ms => ms

/-- Modelled from the spec: the children a traversal sees at a node.  With
allowPaging the engine may extend the materialized children by the extra
page; without it only the already materialized children are considered. -/
def childrenOf (allowPaging : Bool) (v : VNode) : List VNode :=
  if allowPaging then v.loaded ++ v.more else v.loaded

/-- Modelled from the spec: the search options record.  canTraverse returns
the admission decision together with the list of load-until references the
predicate requests on admission (the findCommit local predicate awaits a
loadMore before returning true; every other predicate requests nothing).
The cancellation token is modelled by the number of node visits after which
it reports cancellation. -/
structure FindOpts where
  maxDepth : Nat
  canTraverse : NData → Bool × List String
  allowPaging : Bool := false
  cancelAfter : Option Nat := none

/-- Lift an effect-free canTraverse predicate into the options shape. -/
def liftCT (f : NData → Bool) : NData → Bool × List String :=
  fun n => (f n, [])

/-- The observable record of one traversal: the nodes tested against the
matcher (with the tree path they were found at), the paths whose children
were materialized, the loadMore-until requests issued by canTraverse, the
paths at which an extra page was requested, and the search result. -/
structure Trace where
  visited : List (List Nat × NData)
  materialized : List (List Nat)
  loadMores : List (List Nat × String)
  pageReqs : List (List Nat)
  result : Option NData
deriving DecidableEq, Repr

def emptyTrace : Trace :=
  { visited := [], materialized := [], loadMores := [], pageReqs := [], result := none }

/-- Pair every element of a children list with its path below p, starting at
child index i. -/
def attachPaths (p : List Nat) (i : Nat) : List VNode → List (List Nat × VNode)
  | [] => []
  | c :: cs => (p ++ [i], c) :: attachPaths p (i + 1) cs

/-- Modelled from the spec: the cancellation token is checked between node
visits; it reports cancellation once the given number of visits happened. -/
def cancelledAt (o : FindOpts) (visits : Nat) : Bool :=
  match o.cancelAfter with
  | none => false
  | some k => decide (k ≤ visits)

/-- Record that a node was popped and tested against the matcher. -/
def visitAcc (acc : Trace) (p : List Nat) (d : NData) : Trace :=
  { acc with visited := acc.visited ++ [(p, d)] }

/-- Record that an admitted node had its canTraverse effects performed and
its children materialized (with a page request when paging applies). -/
def expandAcc (o : FindOpts) (p : List Nat) (v : VNode) (acc : Trace) : Trace :=
  { acc with
    loadMores := acc.loadMores ++ ((o.canTraverse v.data).2.map fun r => (p, r)),
    materialized := acc.materialized ++ [p],
    pageReqs := acc.pageReqs ++ (if o.allowPaging && !v.more.isEmpty then [p] else []) }

/-- Modelled from the spec: the breadth-first traversal engine
(ViewBase.findNode, not part of the source tree).  The frontier is a queue
of tree paths with their nodes; on popping a node the engine checks the
token, tests the matcher, applies the depth bound, evaluates canTraverse and
either prunes or materializes and enqueues the children.  The fuel argument
only bounds the recursion; findNode supplies enough of it for the walk to
run to completion. -/
def bfsGo (m : NData → Bool) (o : FindOpts) :
    Nat → List (List Nat × VNode) → Trace → Trace
  | 0, _, acc => acc
  | _ + 1, [], acc => acc
  | fuel + 1, (p, v) :: rest, acc =>
    if cancelledAt o acc.visited.length then acc
    else if m v.data then { visitAcc acc p v.data with result := some v.data }
    else if o.maxDepth ≤ p.length then bfsGo m o fuel rest (visitAcc acc p v.data)
    else if (o.canTraverse v.data).1 then
      bfsGo m o fuel (rest ++ attachPaths p 0 (childrenOf o.allowPaging v))
        (expandAcc o p v (visitAcc acc p v.data))
    else bfsGo m o fuel rest (visitAcc acc p v.data)

mutual

/-- Number of nodes of a tree, both pages included. -/
def vsize : VNode → Nat
  | .node _ cs ms => 1 + vsizeL cs + vsizeL ms

/-- Number of nodes of a forest, both pages included. -/
def vsizeL : List VNode → Nat
  | [] => 0
  | c :: cs => vsize c + vsizeL cs

end

/-- Modelled from the spec: run a search below the given root.  The frontier
is seeded with the children of the root; the root itself is never tested. -/
def findNode (t : VNode) (m : NData → Bool) (o : FindOpts) : Trace :=
  bfsGo m o (vsize t) (attachPaths [] 0 (childrenOf o.allowPaging t)) emptyTrace

/-- Look a path up in the logical tree (children taken with or without the
extra pagination page, matching the allowPaging mode of a search). -/
def nodeAt? (ap : Bool) : VNode → List Nat → Option VNode
  | v, [] => some v
  | v, i :: p =>
    match (childrenOf ap v).get? i with
    | some c => nodeAt? ap c p
    | none => none

/-- q lies strictly below p in the tree coordinates. -/
def isUnder (p q : List Nat) : Bool :=
  decide (p.length < q.length ∧ q.take p.length = p)

/-- Modelled from the spec: the id of the repository node owning a
repository path; every node of that repository carries this id as a prefix
of its own id (the node classes are not part of the source tree). -/
def RepositoryNode.getId (repoPath : String) : String :=
  "repo(" ++ repoPath ++ ")"

/-- Modelled from the spec: the id of the branches section node. -/
def BranchesNode.getId (repoPath : String) : String :=
  RepositoryNode.getId repoPath ++ ":branches"

/-- Modelled from the spec: the id of the stashes section node. -/
def StashesNode.getId (repoPath : String) : String :=
  RepositoryNode.getId repoPath ++ ":stashes"

/-- Modelled from the spec: the id of the tags section node. -/
def TagsNode.getId (repoPath : String) : String :=
  RepositoryNode.getId repoPath ++ ":tags"

/-- Modelled from the spec: the id of the worktrees section node. -/
def WorktreesNode.getId (repoPath : String) : String :=
  RepositoryNode.getId repoPath ++ ":worktrees"

/-- Modelled from the spec: the id of a stash node. -/
def StashNode.getId (repoPath ref : String) : String :=
  StashesNode.getId repoPath ++ ":stash(" ++ ref ++ ")"

/-- Modelled from the spec: the id of a worktree node. -/
def WorktreeNode.getId (repoPath uri : String) : String :=
  WorktreesNode.getId repoPath ++ ":worktree(" ++ uri ++ ")"

/-- Modelled from the spec: the id of a contributor node. -/
def ContributorNode.getId (repoPath name email username : String) : String :=
  RepositoryNode.getId repoPath ++ ":contributor(" ++ name ++ "|" ++ email ++ "|" ++ username ++ ")"

/-- The prefix test id.startsWith(repoNodeId) used by every canTraverse
predicate, expressed over the character lists of the strings. -/
def strHasPrefix (pre s : String) : Bool :=
  pre.data.isPrefixOf s.data

/-- The segment of a branch name before the first slash: the translation of
the JavaScript expression b.split(slash, 1)[0] used by findCommit to map a
remote branch name to its remote. -/
def firstSegment (s : String) : String :=
  String.mk (s.data.takeWhile fun c => c != '/')

/-- Modelled from the spec: GitBranch.getRemote parses the remote prefix
(the part of the name before the first slash) out of a remote branch name;
the GitBranch model class is not part of the source tree. -/
def GitBranch.getRemote (name : String) : String :=
  firstSegment name

/-- A branch reference as passed to findBranch: repoPath, full name,
ref and whether the branch is a remote branch. -/
structure GitBranchReference where
  repoPath : String
  name : String
  ref : String
  remote : Bool
deriving DecidableEq, Repr

/-- A remote as passed to findRemote. -/
structure GitRemoteRef where
  repoPath : String
  name : String
deriving DecidableEq, Repr

/-- A stash reference as passed to findStash. -/
structure GitStashReference where
  repoPath : String
  ref : String
deriving DecidableEq, Repr

/-- A tag reference as passed to findTag. -/
structure GitTagReference where
  repoPath : String
  ref : String
deriving DecidableEq, Repr

/-- A contributor as passed to findContributor. -/
structure GitContributorRef where
  repoPath : String
  name : String
  email : String
  username : String
deriving DecidableEq, Repr

/-- A worktree as passed to findWorktree. -/
structure GitWorktreeRef where
  repoPath : String
  name : String
  uri : String
deriving DecidableEq, Repr

/-- The external branch-containment collaborator consulted by findCommit:
getCommitBranches without and with the remotes option. -/
structure GitAccess where
  getCommitBranchesLocal : String → String → List String
  getCommitBranchesRemote : String → String → List String

/-- Matcher of findBranch: n.branch is defined and n.branch.ref equals the
searched ref. -/
def branchMatcher (ref : String) (n : NData) : Bool :=
  n.branch.any fun b => b.ref == ref

/-- Matcher of findCommit: n.commit is defined and n.commit.ref equals the
searched ref. -/
def commitMatcher (ref : String) (n : NData) : Bool :=
  n.commit.any fun r => r == ref

/-- Matcher of findRemote: n.remote is defined and its name equals the
searched name. -/
def remoteMatcher (name : String) (n : NData) : Bool :=
  n.remote.any fun s => s == name

/-- Matcher of findTag: n.tag is defined and n.tag.ref equals the searched
ref. -/
def tagMatcher (ref : String) (n : NData) : Bool :=
  n.tag.any fun r => r == ref

/-- Matcher of an id-based findNode call: exact id equality. -/
def idMatcher (id : String) (n : NData) : Bool :=
  n.id == id

/-- canTraverse of findBranch for a remote branch reference (translated from
the source): the repositories root is admitted; a remote node is admitted
only in the same repository and only when its name equals the remote parsed
from the branch name; repository, branches, remotes and branch-or-tag folder
nodes are admitted in the same repository; everything else is pruned. -/
def findBranchRemoteCanTraverse (repoNodeId : String) (branch : GitBranchReference)
    (n : NData) : Bool :=
  if n.kind = .repositories then true
  else if n.kind = .remote then
    if !(strHasPrefix repoNodeId n.id) then false
    else branch.remote && n.remote.any (fun s => s == GitBranch.getRemote branch.name)
  else if n.kind = .repository ∨ n.kind = .branches ∨ n.kind = .remotes ∨
      n.kind = .branchOrTagFolder then
    strHasPrefix repoNodeId n.id
  else false

/-- canTraverse of findBranch for a local branch reference (translated from
the source): only the repositories root and, within the same repository, the
repository, branches and branch-or-tag folder nodes are admitted. -/
def findBranchLocalCanTraverse (repoNodeId : String) (n : NData) : Bool :=
  if n.kind = .repositories then true
  else if n.kind = .repository ∨ n.kind = .branches ∨ n.kind = .branchOrTagFolder then
    strHasPrefix repoNodeId n.id
  else false

/-- The options findBranch passes for a remote branch reference. -/
def findBranchRemoteOpts (branch : GitBranchReference) (cancel : Option Nat) : FindOpts :=
  { allowPaging := true
    maxDepth := 6
    canTraverse := liftCT (findBranchRemoteCanTraverse (RepositoryNode.getId branch.repoPath) branch)
    cancelAfter := cancel }

/-- The options findBranch passes for a local branch reference. -/
def findBranchLocalOpts (branch : GitBranchReference) (cancel : Option Nat) : FindOpts :=
  { allowPaging := true
    maxDepth := 5
    canTraverse := liftCT (findBranchLocalCanTraverse (RepositoryNode.getId branch.repoPath))
    cancelAfter := cancel }

/-- findBranch translated from the source: dispatch on branch.remote and run
the traversal with the matching options. -/
def findBranchTrace (t : VNode) (branch : GitBranchReference) (cancel : Option Nat) : Trace :=
  if branch.remote then
    findNode t (branchMatcher branch.ref) (findBranchRemoteOpts branch cancel)
  else
    findNode t (branchMatcher branch.ref) (findBranchLocalOpts branch cancel)

/-- canTraverse of the findCommit search over local branches (translated
from the source).  A branch node in the same repository whose name is among
the branches containing the commit is admitted after a loadMore request up
to the searched ref; a branch node failing that test falls through to the
following checks and is pruned there.  The second component carries the
loadMore-until requests the predicate issues. -/
def findCommitLocalCanTraverse (repoNodeId ref : String) (branches : List String)
    (n : NData) : Bool × List String :=
  if n.kind = .repositories then (true, [])
  else if n.kind = .branch ∧ strHasPrefix repoNodeId n.id = true ∧
      n.branch.any (fun b => branches.contains b.name) = true then
    (true, [ref])
  else if n.kind = .repository ∨ n.kind = .branches ∨ n.kind = .branchOrTagFolder then
    (strHasPrefix repoNodeId n.id, [])
  else (false, [])

/-- canTraverse of the findCommit search over remote branches (translated
from the source): remote nodes are admitted in the same repository when
their name is among the remotes carrying the commit; branch nodes when their
name is among the remote branches containing the commit; repository, remotes
and branch-or-tag folder nodes in the same repository. -/
def findCommitRemoteCanTraverse (repoNodeId : String) (branches remotes : List String)
    (n : NData) : Bool :=
  if n.kind = .repositories then true
  else if n.kind = .remote then
    strHasPrefix repoNodeId n.id && n.remote.any (fun s => remotes.contains s)
  else if n.kind = .branch then
    strHasPrefix repoNodeId n.id && n.branch.any (fun b => branches.contains b.name)
  else if n.kind = .repository ∨ n.kind = .remotes ∨ n.kind = .branchOrTagFolder then
    strHasPrefix repoNodeId n.id
  else false

/-- The options findCommit passes when some local branch contains the
commit. -/
def findCommitLocalOpts (repoPath ref : String) (branches : List String)
    (cancel : Option Nat) : FindOpts :=
  { allowPaging := true
    maxDepth := 6
    canTraverse := findCommitLocalCanTraverse (RepositoryNode.getId repoPath) ref branches
    cancelAfter := cancel }

/-- The options findCommit passes when only remote branches contain the
commit. -/
def findCommitRemoteOpts (repoPath : String) (branches : List String)
    (cancel : Option Nat) : FindOpts :=
  { allowPaging := true
    maxDepth := 8
    canTraverse := liftCT (findCommitRemoteCanTraverse (RepositoryNode.getId repoPath)
      branches (branches.map firstSegment))
    cancelAfter := cancel }

/-- The outcome of findCommit: whether the traversal engine ran at all, and
the trace it produced (the empty trace when it never ran). -/
structure CommitSearchOutcome where
  engineInvoked : Bool
  trace : Trace
deriving DecidableEq, Repr

/-- findCommit translated from the source: resolve the local branches
containing the commit; when some exist, search with the local options.
Otherwise resolve remote branches; when none exist either, resolve to
undefined without running the traversal; otherwise search with the remote
options. -/
def findCommit (git : GitAccess) (t : VNode) (repoPath ref : String)
    (cancel : Option Nat) : CommitSearchOutcome :=
  let branches := git.getCommitBranchesLocal repoPath ref
  if branches.isEmpty then
    let branches := git.getCommitBranchesRemote repoPath ref
    if branches.isEmpty then { engineInvoked := false, trace := emptyTrace }
    else
      { engineInvoked := true
        trace := findNode t (commitMatcher ref) (findCommitRemoteOpts repoPath branches cancel) }
  else
    { engineInvoked := true
      trace := findNode t (commitMatcher ref) (findCommitLocalOpts repoPath ref branches cancel) }

/-- canTraverse of findContributor (translated from the source). -/
def findContributorCanTraverse (repoNodeId : String) (n : NData) : Bool :=
  if n.kind = .repositories then true
  else if n.kind = .repository ∨ n.kind = .contributors then
    strHasPrefix repoNodeId n.id
  else false

/-- The options findContributor passes; the source omits allowPaging. -/
def findContributorOpts (repoPath : String) (cancel : Option Nat) : FindOpts :=
  { maxDepth := 2
    canTraverse := liftCT (findContributorCanTraverse (RepositoryNode.getId repoPath))
    cancelAfter := cancel }

/-- findContributor translated from the source: an id-based search. -/
def findContributorTrace (t : VNode) (c : GitContributorRef) (cancel : Option Nat) : Trace :=
  findNode t (idMatcher (ContributorNode.getId c.repoPath c.name c.email c.username))
    (findContributorOpts c.repoPath cancel)

/-- canTraverse of findRemote (translated from the source). -/
def findRemoteCanTraverse (repoNodeId : String) (n : NData) : Bool :=
  if n.kind = .repositories then true
  else if n.kind = .repository ∨ n.kind = .remotes then
    strHasPrefix repoNodeId n.id
  else false

/-- The options findRemote passes. -/
def findRemoteOpts (repoPath : String) (cancel : Option Nat) : FindOpts :=
  { allowPaging := true
    maxDepth := 2
    canTraverse := liftCT (findRemoteCanTraverse (RepositoryNode.getId repoPath))
    cancelAfter := cancel }

/-- findRemote translated from the source. -/
def findRemoteTrace (t : VNode) (remote : GitRemoteRef) (cancel : Option Nat) : Trace :=
  findNode t (remoteMatcher remote.name) (findRemoteOpts remote.repoPath cancel)

/-- canTraverse of findStash (translated from the source). -/
def findStashCanTraverse (repoNodeId : String) (n : NData) : Bool :=
  if n.kind = .repositories then true
  else if n.kind = .repository ∨ n.kind = .stashes then
    strHasPrefix repoNodeId n.id
  else false

/-- The options findStash passes; the source omits allowPaging. -/
def findStashOpts (repoPath : String) (cancel : Option Nat) : FindOpts :=
  { maxDepth := 3
    canTraverse := liftCT (findStashCanTraverse (RepositoryNode.getId repoPath))
    cancelAfter := cancel }

/-- findStash translated from the source: an id-based search. -/
def findStashTrace (t : VNode) (stash : GitStashReference) (cancel : Option Nat) : Trace :=
  findNode t (idMatcher (StashNode.getId stash.repoPath stash.ref))
    (findStashOpts stash.repoPath cancel)

/-- canTraverse of findTag (translated from the source). -/
def findTagCanTraverse (repoNodeId : String) (n : NData) : Bool :=
  if n.kind = .repositories then true
  else if n.kind = .repository ∨ n.kind = .tags ∨ n.kind = .branchOrTagFolder then
    strHasPrefix repoNodeId n.id
  else false

/-- The options findTag passes. -/
def findTagOpts (repoPath : String) (cancel : Option Nat) : FindOpts :=
  { allowPaging := true
    maxDepth := 5
    canTraverse := liftCT (findTagCanTraverse (RepositoryNode.getId repoPath))
    cancelAfter := cancel }

/-- findTag translated from the source. -/
def findTagTrace (t : VNode) (tag : GitTagReference) (cancel : Option Nat) : Trace :=
  findNode t (tagMatcher tag.ref) (findTagOpts tag.repoPath cancel)

/-- canTraverse of findWorktree (translated from the source). -/
def findWorktreeCanTraverse (repoNodeId : String) (n : NData) : Bool :=
  if n.kind = .repositories then true
  else if n.kind = .repository ∨ n.kind = .worktrees then
    strHasPrefix repoNodeId n.id
  else false

/-- The options findWorktree passes; the source omits allowPaging. -/
def findWorktreeOpts (repoPath : String) (cancel : Option Nat) : FindOpts :=
  { maxDepth := 2
    canTraverse := liftCT (findWorktreeCanTraverse (RepositoryNode.getId repoPath))
    cancelAfter := cancel }

/-- findWorktree translated from the source: an id-based search. -/
def findWorktreeTrace (t : VNode) (w : GitWorktreeRef) (cancel : Option Nat) : Trace :=
  findNode t (idMatcher (WorktreeNode.getId w.repoPath w.uri)) (findWorktreeOpts w.repoPath cancel)

/-- canTraverse shared by the section reveals revealBranches, revealStashes,
revealTags and revealWorktrees (the source repeats the same predicate in
each): the repositories root, and the repository node of the same
repository. -/
def sectionRevealCanTraverse (repoNodeId : String) (n : NData) : Bool :=
  if n.kind = .repositories then true
  else if n.kind = .repository then strHasPrefix repoNodeId n.id
  else false

/-- The options the four section reveals pass: maxDepth 2, no paging, no
token. -/
def sectionRevealOpts (repoPath : String) : FindOpts :=
  { maxDepth := 2
    canTraverse := liftCT (sectionRevealCanTraverse (RepositoryNode.getId repoPath)) }

/-- canTraverse of revealRepository (translated from the source): only the
repositories root is traversed. -/
def revealRepositoryCanTraverse (n : NData) : Bool :=
  n.kind = .repositories

/-- The options revealRepository passes: maxDepth 1, no paging, no token. -/
def revealRepositoryOpts : FindOpts :=
  { maxDepth := 1
    canTraverse := liftCT revealRepositoryCanTraverse }

/-- The reveal options passed through the reveal operations. -/
structure RevealOptions where
  select : Bool := false
  focus : Bool := false
  expand : Bool := false
deriving DecidableEq, Repr

/-- A UI operation issued against the host surface. -/
inductive RevealOp where
  | expandOp (id : String)
  | selectOp (id : String)
  | focusOp (id : String)
deriving DecidableEq, Repr

/-- Modelled from the spec: the reveal orchestrator (ViewBase.reveal and
ensureRevealNode, not part of the source tree) issues expand, select and
focus operations for a located node.  Only the fact that operations are
issued matters to the claims below, not their ancestor walk. -/
def revealOps (n : NData) (o : RevealOptions) : List RevealOp :=
  [RevealOp.expandOp n.id]
    ++ (if o.select then [RevealOp.selectOp n.id] else [])
    ++ (if o.focus then [RevealOp.focusOp n.id] else [])

/-- The value a reveal operation resolves to, together with the UI
operations it issued. -/
def revealOutcome (found : Option NData) (o : RevealOptions) : Option NData × List RevealOp :=
  match found with
  | none => (none, [])
  | some n => (some n, revealOps n o)

/-- revealBranch translated from the source: find the branch, return
undefined without revealing when it was not found. -/
def revealBranch (t : VNode) (branch : GitBranchReference) (o : RevealOptions)
    (cancel : Option Nat) : Option NData × List RevealOp :=
  revealOutcome (findBranchTrace t branch cancel).result o

/-- The find call of revealBranches (translated from the source): an
id-based search for the branches section node, without a token. -/
def revealBranchesFindTrace (t : VNode) (repoPath : String) : Trace :=
  findNode t (idMatcher (BranchesNode.getId repoPath)) (sectionRevealOpts repoPath)

/-- revealBranches translated from the source. -/
def revealBranches (t : VNode) (repoPath : String) (o : RevealOptions) :
    Option NData × List RevealOp :=
  revealOutcome (revealBranchesFindTrace t repoPath).result o

/-- revealCommit translated from the source. -/
def revealCommit (git : GitAccess) (t : VNode) (repoPath ref : String) (o : RevealOptions)
    (cancel : Option Nat) : Option NData × List RevealOp :=
  revealOutcome (findCommit git t repoPath ref cancel).trace.result o

/-- revealContributor translated from the source. -/
def revealContributor (t : VNode) (c : GitContributorRef) (o : RevealOptions)
    (cancel : Option Nat) : Option NData × List RevealOp :=
  revealOutcome (findContributorTrace t c cancel).result o

/-- revealRemote translated from the source. -/
def revealRemote (t : VNode) (remote : GitRemoteRef) (o : RevealOptions)
    (cancel : Option Nat) : Option NData × List RevealOp :=
  revealOutcome (findRemoteTrace t remote cancel).result o

/-- The find call of revealRepository (translated from the source). -/
def revealRepositoryFindTrace (t : VNode) (repoPath : String) : Trace :=
  findNode t (idMatcher (RepositoryNode.getId repoPath)) revealRepositoryOpts

/-- revealRepository translated from the source. -/
def revealRepository (t : VNode) (repoPath : String) (o : RevealOptions) :
    Option NData × List RevealOp :=
  revealOutcome (revealRepositoryFindTrace t repoPath).result o

/-- revealStash translated from the source. -/
def revealStash (t : VNode) (stash : GitStashReference) (o : RevealOptions)
    (cancel : Option Nat) : Option NData × List RevealOp :=
  revealOutcome (findStashTrace t stash cancel).result o

/-- The find call of revealStashes (translated from the source). -/
def revealStashesFindTrace (t : VNode) (repoPath : String) : Trace :=
  findNode t (idMatcher (StashesNode.getId repoPath)) (sectionRevealOpts repoPath)

/-- revealStashes translated from the source. -/
def revealStashes (t : VNode) (repoPath : String) (o : RevealOptions) :
    Option NData × List RevealOp :=
  revealOutcome (revealStashesFindTrace t repoPath).result o

/-- revealTag translated from the source. -/
def revealTag (t : VNode) (tag : GitTagReference) (o : RevealOptions)
    (cancel : Option Nat) : Option NData × List RevealOp :=
  revealOutcome (findTagTrace t tag cancel).result o

/-- The find call of revealTags (translated from the source). -/
def revealTagsFindTrace (t : VNode) (repoPath : String) : Trace :=
  findNode t (idMatcher (TagsNode.getId repoPath)) (sectionRevealOpts repoPath)

/-- revealTags translated from the source. -/
def revealTags (t : VNode) (repoPath : String) (o : RevealOptions) :
    Option NData × List RevealOp :=
  revealOutcome (revealTagsFindTrace t repoPath).result o

/-- revealWorktree translated from the source. -/
def revealWorktree (t : VNode) (w : GitWorktreeRef) (o : RevealOptions)
    (cancel : Option Nat) : Option NData × List RevealOp :=
  revealOutcome (findWorktreeTrace t w cancel).result o

/-- The find call of revealWorktrees (translated from the source). -/
def revealWorktreesFindTrace (t : VNode) (repoPath : String) : Trace :=
  findNode t (idMatcher (WorktreesNode.getId repoPath)) (sectionRevealOpts repoPath)

/-- revealWorktrees translated from the source. -/
def revealWorktrees (t : VNode) (repoPath : String) (o : RevealOptions) :
    Option NData × List RevealOp :=
  revealOutcome (revealWorktreesFindTrace t repoPath).result o

/-- One query builder of the repositories view, with the parameters its
canTraverse predicate closes over. -/
inductive RepoQuery where
  | branchRemote (branch : GitBranchReference)
  | branchLocal (branch : GitBranchReference)
  | commitLocal (repoPath ref : String) (branches : List String)
  | commitRemote (repoPath : String) (branches remotes : List String)
  | contributorQ (repoPath : String)
  | remoteQ (repoPath : String)
  | stashQ (repoPath : String)
  | tagQ (repoPath : String)
  | worktreeQ (repoPath : String)
  | sectionBranches (repoPath : String)
  | sectionRepository (repoPath : String)
  | sectionStashes (repoPath : String)
  | sectionTags (repoPath : String)
  | sectionWorktrees (repoPath : String)

/-- The repository path a query builder is scoped to. -/
def RepoQuery.repoPath : RepoQuery → String
  | .branchRemote b => b.repoPath
  | .branchLocal b => b.repoPath
  | .commitLocal rp _ _ => rp
  | .commitRemote rp _ _ => rp
  | .contributorQ rp => rp
  | .remoteQ rp => rp
  | .stashQ rp => rp
  | .tagQ rp => rp
  | .worktreeQ rp => rp
  | .sectionBranches rp => rp
  | .sectionRepository rp => rp
  | .sectionStashes rp => rp
  | .sectionTags rp => rp
  | .sectionWorktrees rp => rp

/-- The admission decision of the canTraverse predicate a query builder
constructs. -/
def RepoQuery.admits : RepoQuery → NData → Bool
  | .branchRemote b, n =>
    findBranchRemoteCanTraverse (RepositoryNode.getId b.repoPath) b n
  | .branchLocal b, n =>
    findBranchLocalCanTraverse (RepositoryNode.getId b.repoPath) n
  | .commitLocal rp ref bs, n =>
    (findCommitLocalCanTraverse (RepositoryNode.getId rp) ref bs n).1
  | .commitRemote rp bs rs, n =>
    findCommitRemoteCanTraverse (RepositoryNode.getId rp) bs rs n
  | .contributorQ rp, n => findContributorCanTraverse (RepositoryNode.getId rp) n
  | .remoteQ rp, n => findRemoteCanTraverse (RepositoryNode.getId rp) n
  | .stashQ rp, n => findStashCanTraverse (RepositoryNode.getId rp) n
  | .tagQ rp, n => findTagCanTraverse (RepositoryNode.getId rp) n
  | .worktreeQ rp, n => findWorktreeCanTraverse (RepositoryNode.getId rp) n
  | .sectionBranches rp, n => sectionRevealCanTraverse (RepositoryNode.getId rp) n
  | .sectionRepository _, n => revealRepositoryCanTraverse n
  | .sectionStashes rp, n => sectionRevealCanTraverse (RepositoryNode.getId rp) n
  | .sectionTags rp, n => sectionRevealCanTraverse (RepositoryNode.getId rp) n
  | .sectionWorktrees rp, n => sectionRevealCanTraverse (RepositoryNode.getId rp) n

/-- Modelled from the spec: the per-view re-entrancy guard around the
reveal-with-progress operations (the gate decorator is not part of the
source tree).  A request begins at once when nothing is in flight and is
queued otherwise; a completion retires the running operation and starts the
next queued one. -/
inductive GateReq where
  | request (id : Nat)
  | complete

/-- An entry of the gate event log: an operation entering its walk, or an
operation settling. -/
inductive GateEv where
  | enter (id : Nat)
  | settled (id : Nat)
deriving DecidableEq, Repr

/-- The state of the re-entrancy guard: the operation in flight, the queued
requests, and the event log. -/
structure GateState where
  inFlight : Option Nat
  pending : List Nat
  log : List GateEv

def gateStart : GateState :=
  { inFlight := none, pending := [], log := [] }

/-- Modelled from the spec: one transition of the re-entrancy guard. -/
def gateStep (s : GateState) : GateReq → GateState
  | .request i =>
    match s.inFlight with
    | none => { s with inFlight := some i, log := s.log ++ [.enter i] }
    | some _ => { s with pending := s.pending ++ [i] }
  | .complete =>
    match s.inFlight with
    | none => s
    | some i =>
      match s.pending with
      | [] => { inFlight := none, pending := [], log := s.log ++ [.settled i] }
      | j :: rest =>
        { inFlight := some j, pending := rest, log := s.log ++ [.settled i, .enter j] }

/-- Run the re-entrancy guard over a sequence of external events. -/
def gateRun (reqs : List GateReq) : GateState :=
  reqs.foldl gateStep gateStart

/-- Number of enter events in a gate log. -/
def enters (l : List GateEv) : Nat :=
  (l.filter fun e => match e with | .enter _ => true | _ => false).length

/-- Number of settled events in a gate log. -/
def settles (l : List GateEv) : Nat :=
  (l.filter fun e => match e with | .settled _ => true | _ => false).length

/-- Trace extension: every recorded event of the first trace is also
recorded by the second. -/
def traceLE (a b : Trace) : Prop :=
  (∀ x, x ∈ a.visited → x ∈ b.visited) ∧
  (∀ q, q ∈ a.materialized → q ∈ b.materialized) ∧
  (∀ x, x ∈ a.loadMores → x ∈ b.loadMores) ∧
  (∀ q, q ∈ a.pageReqs → q ∈ b.pageReqs)

/-- The ancestor invariant of a search: the path is nonempty, it denotes the
given node in the logical tree, and every strict nonempty prefix of it was
admitted by canTraverse with all its loadMore requests recorded. -/
def ancOK (t : VNode) (o : FindOpts) (p : List Nat) (v : VNode) (acc : Trace) : Prop :=
  p ≠ [] ∧ nodeAt? o.allowPaging t p = some v ∧
    ∀ p1 p2, p = p1 ++ p2 → p1 ≠ [] → p2 ≠ [] →
      ∃ w : VNode, nodeAt? o.allowPaging t p1 = some w ∧
        (o.canTraverse w.data).1 = true ∧
        ∀ r ∈ (o.canTraverse w.data).2, (p1, r) ∈ acc.loadMores

/-- A gate log is well formed when every prefix settles at most as many
operations as it enters and never has more than one operation entered but
not yet settled. -/
def logOK (l : List GateEv) : Prop :=
  ∀ l1 l2, l = l1 ++ l2 → settles l1 ≤ enters l1 ∧ enters l1 ≤ settles l1 + 1

/-- Number of operations an in-flight marker accounts for. -/
def flightCount : Option Nat → Nat
  | none => 0
  | some _ => 1

/-- The invariant of the re-entrancy guard: the log is well formed, and the
difference between entered and settled operations is exactly the number in
flight. -/
def gateInv (s : GateState) : Prop :=
  logOK s.log ∧ enters s.log = settles s.log + flightCount s.inFlight

/-- Concrete fixtures used by the witnesses: a root with one repository,
its branches section (a main branch, and a feature branch with one loaded
commit and one commit behind pagination), its remotes section with origin
and upstream remotes, and the stashes, tags, contributors and worktrees
sections. -/
def dRoot : NData := { id := "root", kind := .repositories }

def dRepo : NData := { id := "repo(r)", kind := .repository }

def dBranchesSec : NData := { id := "repo(r):branches", kind := .branches }

def dMain : NData :=
  { id := "repo(r):branches:main", kind := .branch,
    branch := some { name := "main", ref := "rMain" } }

def dFeat : NData :=
  { id := "repo(r):branches:feat", kind := .branch,
    branch := some { name := "feat", ref := "rFeat" } }

def dC1 : NData := { id := "repo(r):branches:feat:c1", kind := .commit, commit := some "c1" }

def dC2 : NData := { id := "repo(r):branches:feat:c2", kind := .commit, commit := some "c2" }

def dRemotesSec : NData := { id := "repo(r):remotes", kind := .remotes }

def dOrigin : NData := { id := "repo(r):remotes:origin", kind := .remote, remote := some "origin" }

def dUpstream : NData :=
  { id := "repo(r):remotes:upstream", kind := .remote, remote := some "upstream" }

def tC1 : VNode := .node dC1 [] []

def tC2 : VNode := .node dC2 [] []

def tFeat : VNode := .node dFeat [tC1] [tC2]

def tMain : VNode := .node dMain [] []

def tBranchesSec : VNode := .node dBranchesSec [tMain, tFeat] []

def tOrigin : VNode := .node dOrigin [] []

def tUpstream : VNode := .node dUpstream [] []

def tRemotesSec : VNode := .node dRemotesSec [tOrigin, tUpstream] []

def tRepo : VNode := .node dRepo [tBranchesSec, tRemotesSec] []

def tRoot : VNode := .node dRoot [tRepo] []

/-- A collaborator according to which no branch contains any commit. -/
def gitNone : GitAccess :=
  { getCommitBranchesLocal := fun _ _ => []
    getCommitBranchesRemote := fun _ _ => [] }

/-- A collaborator according to which the feature branch contains every
commit locally. -/
def gitFeat : GitAccess :=
  { getCommitBranchesLocal := fun _ _ => ["feat"]
    getCommitBranchesRemote := fun _ _ => [] }

/-- A remote branch reference on origin, used by the witnesses. -/
def bOriginFeature : GitBranchReference :=
  { repoPath := "r", name := "origin/feature", ref := "rOF", remote := true }

/-- Search options used by the pruning witness: traverse everything except
the branches section. -/
def oW3 : FindOpts :=
  { maxDepth := 5
    canTraverse := liftCT fun n => decide (n.kind ≠ NodeKind.branches) }

lemma traceLE_refl (a : Trace) : traceLE a a :=
  ⟨fun _ h => h, fun _ h => h, fun _ h => h, fun _ h => h⟩

lemma traceLE_trans {a b c : Trace} (h1 : traceLE a b) (h2 : traceLE b c) : traceLE a c :=
  ⟨fun x h => h2.1 x (h1.1 x h), fun q h => h2.2.1 q (h1.2.1 q h),
   fun x h => h2.2.2.1 x (h1.2.2.1 x h), fun q h => h2.2.2.2 q (h1.2.2.2 q h)⟩

lemma traceLE_visitAcc (acc : Trace) (p : List Nat) (d : NData) :
    traceLE acc (visitAcc acc p d) := by
  refine ⟨fun x h => ?_, fun q h => h, fun x h => h, fun q h => h⟩
  simp only [visitAcc, List.mem_append]
  exact Or.inl h

lemma traceLE_expandAcc (o : FindOpts) (p : List Nat) (v : VNode) (acc : Trace) :
    traceLE acc (expandAcc o p v acc) := by
  refine ⟨fun x h => h, fun q h => ?_, fun x h => ?_, fun q h => ?_⟩ <;>
    simp only [expandAcc, List.mem_append] <;> exact Or.inl h

lemma traceLE_setResult (a : Trace) (r : Option NData) :
    traceLE a { a with result := r } :=
  ⟨fun _ h => h, fun _ h => h, fun _ h => h, fun _ h => h⟩

/-- The walk only extends its trace. -/
lemma bfsGo_le (m : NData → Bool) (o : FindOpts) :
    ∀ fuel queue acc, traceLE acc (bfsGo m o fuel queue acc) := by
  intro fuel
  induction fuel with
  | zero => intro queue acc; exact traceLE_refl _
  | succ fuel ih =>
    intro queue acc
    match queue with
    | [] => exact traceLE_refl _
    | (p, v) :: rest =>
      simp only [bfsGo]
      split
      · exact traceLE_refl _
      · split
        · exact traceLE_trans (traceLE_visitAcc acc p v.data) (traceLE_setResult _ _)
        · split
          · exact traceLE_trans (traceLE_visitAcc acc p v.data) (ih _ _)
          · split
            · exact traceLE_trans (traceLE_visitAcc acc p v.data)
                (traceLE_trans (traceLE_expandAcc o p v _) (ih _ _))
            · exact traceLE_trans (traceLE_visitAcc acc p v.data) (ih _ _)

lemma attachPaths_mem {p : List Nat} {i : Nat} {cs : List VNode}
    {e : List Nat × VNode} (h : e ∈ attachPaths p i cs) :
    ∃ j c, cs.get? j = some c ∧ e = (p ++ [i + j], c) := by
  induction cs generalizing i with
  | nil => simp [attachPaths] at h
  | cons c cs ih =>
    simp only [attachPaths, List.mem_cons] at h
    rcases h with h | h
    · exact ⟨0, c, rfl, by simpa using h⟩
    · obtain ⟨j, c', hg, he⟩ := ih h
      refine ⟨j + 1, c', by simpa using hg, ?_⟩
      have harith : i + 1 + j = i + (j + 1) := by omega
      rw [he, harith]

lemma nodeAt?_append (ap : Bool) (t : VNode) (p q : List Nat) :
    nodeAt? ap t (p ++ q) = (nodeAt? ap t p).bind (fun v => nodeAt? ap v q) := by
  induction p generalizing t with
  | nil => simp [nodeAt?]
  | cons i p ih =>
    simp only [List.cons_append, nodeAt?]
    cases h : (childrenOf ap t).get? i with
    | none => simp
    | some c => simp [ih c]

lemma nodeAt?_singleton (ap : Bool) (v : VNode) (i : Nat) :
    nodeAt? ap v [i] = (childrenOf ap v).get? i := by
  simp only [nodeAt?]
  cases h : (childrenOf ap v).get? i <;> simp

/-- The central soundness induction of the walk: a property of paths that is
monotone in the trace and hereditary along admitted expansion steps holds of
every visited entry and every materialized path. -/
lemma bfsGo_sound (m : NData → Bool) (o : FindOpts)
    (P : List Nat → VNode → Trace → Prop)
    (hmono : ∀ p v a b, traceLE a b → P p v a → P p v b)
    (hstep : ∀ p v acc i c, P p v acc → p.length < o.maxDepth →
      (o.canTraverse v.data).1 = true → (childrenOf o.allowPaging v).get? i = some c →
      P (p ++ [i]) c (expandAcc o p v (visitAcc acc p v.data))) :
    ∀ fuel queue acc,
      (∀ e ∈ queue, P e.1 e.2 acc) →
      (∀ x ∈ acc.visited, ∃ v : VNode, v.data = x.2 ∧ P x.1 v acc) →
      (∀ q ∈ acc.materialized, ∃ v : VNode, (o.canTraverse v.data).1 = true ∧ P q v acc) →
      (∀ x ∈ (bfsGo m o fuel queue acc).visited,
        ∃ v : VNode, v.data = x.2 ∧ P x.1 v (bfsGo m o fuel queue acc)) ∧
      (∀ q ∈ (bfsGo m o fuel queue acc).materialized,
        ∃ v : VNode, (o.canTraverse v.data).1 = true ∧ P q v (bfsGo m o fuel queue acc)) := by
  intro fuel
  induction fuel with
  | zero => intro queue acc hq hv hm; exact ⟨hv, hm⟩
  | succ fuel ih =>
    intro queue acc hq hv hm
    match queue with
    | [] => exact ⟨hv, hm⟩
    | (p, v) :: rest =>
      have hpv : P p v acc := hq (p, v) (List.mem_cons_self _ _)
      have hrest : ∀ e ∈ rest, P e.1 e.2 acc := fun e he => hq e (List.mem_cons_of_mem _ he)
      simp only [bfsGo]
      split
      · exact ⟨hv, hm⟩
      · have hv1 : ∀ x ∈ (visitAcc acc p v.data).visited,
            ∃ w : VNode, w.data = x.2 ∧ P x.1 w (visitAcc acc p v.data) := by
          intro x hx
          simp only [visitAcc, List.mem_append, List.mem_singleton] at hx
          rcases hx with hx | hx
          · obtain ⟨w, hw1, hw2⟩ := hv x hx
            exact ⟨w, hw1, hmono _ _ _ _ (traceLE_visitAcc acc p v.data) hw2⟩
          · subst hx
            exact ⟨v, rfl, hmono _ _ _ _ (traceLE_visitAcc acc p v.data) hpv⟩
        have hm1 : ∀ q ∈ (visitAcc acc p v.data).materialized,
            ∃ w : VNode, (o.canTraverse w.data).1 = true ∧ P q w (visitAcc acc p v.data) := by
          intro q hqq
          obtain ⟨w, hw1, hw2⟩ := hm q hqq
          exact ⟨w, hw1, hmono _ _ _ _ (traceLE_visitAcc acc p v.data) hw2⟩
        have hq1 : ∀ e ∈ rest, P e.1 e.2 (visitAcc acc p v.data) :=
          fun e he => hmono _ _ _ _ (traceLE_visitAcc acc p v.data) (hrest e he)
        split
        · -- matcher hit: the walk stops with the result recorded
          constructor
          · intro x hx
            obtain ⟨w, hw1, hw2⟩ := hv1 x hx
            exact ⟨w, hw1, hmono _ _ _ _ (traceLE_setResult _ _) hw2⟩
          · intro q hqq
            obtain ⟨w, hw1, hw2⟩ := hm1 q hqq
            exact ⟨w, hw1, hmono _ _ _ _ (traceLE_setResult _ _) hw2⟩
        · split
          · exact ih rest (visitAcc acc p v.data) hq1 hv1 hm1
          · split
            · -- admitted: children are enqueued below p
              rename_i hcanc hmatch hdepth hadmit
              refine ih (rest ++ attachPaths p 0 (childrenOf o.allowPaging v))
                (expandAcc o p v (visitAcc acc p v.data)) ?_ ?_ ?_
              · intro e he
                rcases List.mem_append.mp he with he | he
                · exact hmono _ _ _ _ (traceLE_expandAcc o p v _) (hq1 e he)
                · obtain ⟨j, c, hg, hejc⟩ := attachPaths_mem he
                  subst hejc
                  simp only [Nat.zero_add]
                  exact hstep p v acc j c hpv (by omega) hadmit hg
              · intro x hx
                have hx' : x ∈ (visitAcc acc p v.data).visited := by
                  simpa [expandAcc] using hx
                obtain ⟨w, hw1, hw2⟩ := hv1 x hx'
                exact ⟨w, hw1, hmono _ _ _ _ (traceLE_expandAcc o p v _) hw2⟩
              · intro q hqq
                simp only [expandAcc, List.mem_append, List.mem_singleton] at hqq
                rcases hqq with hqq | hqq
                · obtain ⟨w, hw1, hw2⟩ := hm1 q hqq
                  exact ⟨w, hw1, hmono _ _ _ _ (traceLE_expandAcc o p v _) hw2⟩
                · rw [hqq]
                  exact ⟨v, hadmit, hmono _ _ _ _ (traceLE_expandAcc o p v _)
                    (hmono _ _ _ _ (traceLE_visitAcc acc p v.data) hpv)⟩
            · exact ih rest (visitAcc acc p v.data) hq1 hv1 hm1

/-- Soundness at the findNode level: a hereditary, trace-monotone property
seeded on the children of the root holds of every visited entry and every
materialized path of the finished search. -/
lemma findNode_sound (t : VNode) (m : NData → Bool) (o : FindOpts)
    (P : List Nat → VNode → Trace → Prop)
    (hmono : ∀ p v a b, traceLE a b → P p v a → P p v b)
    (hstep : ∀ p v acc i c, P p v acc → p.length < o.maxDepth →
      (o.canTraverse v.data).1 = true → (childrenOf o.allowPaging v).get? i = some c →
      P (p ++ [i]) c (expandAcc o p v (visitAcc acc p v.data)))
    (hseed : ∀ j c, (childrenOf o.allowPaging t).get? j = some c → P [j] c emptyTrace) :
    (∀ x ∈ (findNode t m o).visited,
      ∃ v : VNode, v.data = x.2 ∧ P x.1 v (findNode t m o)) ∧
    (∀ q ∈ (findNode t m o).materialized,
      ∃ v : VNode, (o.canTraverse v.data).1 = true ∧ P q v (findNode t m o)) := by
  unfold findNode
  apply bfsGo_sound m o P hmono hstep
  · intro e he
    obtain ⟨j, c, hg, hejc⟩ := attachPaths_mem he
    subst hejc
    simp only [Nat.zero_add, List.nil_append]
    exact hseed j c hg
  · intro x hx; simp [emptyTrace] at hx
  · intro q hq; simp [emptyTrace] at hq

lemma concat_eq_concat {p1 p2 p : List Nat} {i : Nat}
    (h : p1 ++ p2 = p ++ [i]) (h2 : p2 ≠ []) :
    (p1 = p ∧ p2 = [i]) ∨ ∃ p2', p2 = p2' ++ [i] ∧ p = p1 ++ p2' ∧ p2' ≠ [] := by
  rcases List.eq_nil_or_concat p2 with hnil | ⟨p2', x, rfl⟩
  · exact absurd hnil h2
  · rw [List.concat_eq_append, ← List.append_assoc] at h
    obtain ⟨h3, h4⟩ := List.append_inj' h rfl
    have hx : x = i := by simpa using h4
    subst hx
    rcases List.eq_nil_or_concat p2' with rfl | hne
    · left
      constructor
      · simpa using h3
      · simp
    · right
      refine ⟨p2', by simp [List.concat_eq_append], h3.symm, ?_⟩
      obtain ⟨l, b, rfl⟩ := hne
      simp

lemma ancOK_mono (t : VNode) (o : FindOpts) :
    ∀ p v a b, traceLE a b → ancOK t o p v a → ancOK t o p v b := by
  intro p v a b hle h
  refine ⟨h.1, h.2.1, ?_⟩
  intro p1 p2 hsplit h1 h2
  obtain ⟨w, hw1, hw2, hw3⟩ := h.2.2 p1 p2 hsplit h1 h2
  exact ⟨w, hw1, hw2, fun r hr => hle.2.2.1 _ (hw3 r hr)⟩

lemma ancOK_step (t : VNode) (o : FindOpts) :
    ∀ p v acc i c, ancOK t o p v acc → p.length < o.maxDepth →
      (o.canTraverse v.data).1 = true → (childrenOf o.allowPaging v).get? i = some c →
      ancOK t o (p ++ [i]) c (expandAcc o p v (visitAcc acc p v.data)) := by
  intro p v acc i c h hdepth hadmit hg
  refine ⟨by simp, ?_, ?_⟩
  · rw [nodeAt?_append, h.2.1]
    simpa [nodeAt?_singleton] using hg
  · intro p1 p2 hsplit h1 h2
    rcases concat_eq_concat hsplit.symm h2 with ⟨rfl, _⟩ | ⟨p2', _, hsplit', hne⟩
    · refine ⟨v, h.2.1, hadmit, ?_⟩
      intro r hr
      simp only [expandAcc, visitAcc, List.mem_append]
      right
      exact List.mem_map.mpr ⟨r, hr, rfl⟩
    · obtain ⟨w, hw1, hw2, hw3⟩ := h.2.2 p1 p2' hsplit' h1 hne
      refine ⟨w, hw1, hw2, fun r hr => ?_⟩
      simp only [expandAcc, visitAcc, List.mem_append]
      exact Or.inl (hw3 r hr)

/-- Every visited entry and every materialized path of a finished search
satisfies the ancestor invariant; a materialized path was moreover itself
admitted by canTraverse. -/
lemma findNode_anc (t : VNode) (m : NData → Bool) (o : FindOpts) :
    (∀ x ∈ (findNode t m o).visited,
      ∃ v : VNode, v.data = x.2 ∧ ancOK t o x.1 v (findNode t m o)) ∧
    (∀ q ∈ (findNode t m o).materialized,
      ∃ v : VNode, (o.canTraverse v.data).1 = true ∧ ancOK t o q v (findNode t m o)) := by
  apply findNode_sound t m o (ancOK t o) (ancOK_mono t o) (ancOK_step t o)
  intro j c hg
  refine ⟨by simp, ?_, ?_⟩
  · simpa [nodeAt?_singleton] using hg
  · intro p1 p2 hsplit h1 h2
    exfalso
    have hlen := congrArg List.length hsplit
    simp only [List.length_append, List.length_singleton] at hlen
    have l1 : 0 < p1.length := List.length_pos.mpr h1
    have l2 : 0 < p2.length := List.length_pos.mpr h2
    omega

/-- Every visited node of a finished search sits at depth at most maxDepth,
provided the bound admits the seeded depth-one frontier. -/
lemma findNode_depth (t : VNode) (m : NData → Bool) (o : FindOpts)
    (h1 : 1 ≤ o.maxDepth) :
    ∀ x ∈ (findNode t m o).visited, x.1.length ≤ o.maxDepth := by
  have h := (findNode_sound t m o (fun p _ _ => p.length ≤ o.maxDepth)
    (fun _ _ _ _ _ h => h)
    (fun p v acc i c _ hd _ _ => by simp only [List.length_append, List.length_singleton]; omega)
    (fun j c _ => by simpa using h1)).1
  intro x hx
  obtain ⟨v, _, hlen⟩ := h x hx
  exact hlen

/-- Without allowPaging the walk never requests a page. -/
lemma bfsGo_pageReqs (m : NData → Bool) (o : FindOpts) (hap : o.allowPaging = false) :
    ∀ fuel queue acc, (bfsGo m o fuel queue acc).pageReqs = acc.pageReqs := by
  intro fuel
  induction fuel with
  | zero => intro queue acc; rfl
  | succ fuel ih =>
    intro queue acc
    match queue with
    | [] => rfl
    | (p, v) :: rest =>
      simp only [bfsGo]
      split
      · rfl
      · split
        · simp [visitAcc]
        · split
          · rw [ih]; simp [visitAcc]
          · split
            · rw [ih]; simp [expandAcc, visitAcc, hap]
            · rw [ih]; simp [visitAcc]

/-- The result of the walk either predates it or corresponds to a visited
node accepted by the matcher. -/
lemma bfsGo_result (m : NData → Bool) (o : FindOpts) :
    ∀ fuel queue acc,
      (bfsGo m o fuel queue acc).result = acc.result ∨
      ∃ x ∈ (bfsGo m o fuel queue acc).visited, m x.2 = true := by
  intro fuel
  induction fuel with
  | zero => intro queue acc; exact Or.inl rfl
  | succ fuel ih =>
    intro queue acc
    match queue with
    | [] => exact Or.inl rfl
    | (p, v) :: rest =>
      simp only [bfsGo]
      split
      · exact Or.inl rfl
      · split
        · rename_i hcanc hmatch
          right
          exact ⟨(p, v.data), by simp [visitAcc], hmatch⟩
        · split
          · rcases ih rest (visitAcc acc p v.data) with h | h
            · exact Or.inl (by rw [h]; rfl)
            · exact Or.inr h
          · split
            · rcases ih (rest ++ attachPaths p 0 (childrenOf o.allowPaging v))
                (expandAcc o p v (visitAcc acc p v.data)) with h | h
              · exact Or.inl (by rw [h]; rfl)
              · exact Or.inr h
            · rcases ih rest (visitAcc acc p v.data) with h | h
              · exact Or.inl (by rw [h]; rfl)
              · exact Or.inr h

/-- With a token that reports cancellation after k visits, the walk never
accumulates more than k visits. -/
lemma bfsGo_cancel_bound (m : NData → Bool) (o : FindOpts) (k : Nat)
    (hk : o.cancelAfter = some k) :
    ∀ fuel queue acc, acc.visited.length ≤ k →
      (bfsGo m o fuel queue acc).visited.length ≤ k := by
  intro fuel
  induction fuel with
  | zero => intro queue acc h; exact h
  | succ fuel ih =>
    intro queue acc h
    match queue with
    | [] => exact h
    | (p, v) :: rest =>
      simp only [bfsGo]
      split
      · exact h
      · rename_i hcanc
        have hlt : acc.visited.length < k := by
          simp only [cancelledAt, hk, decide_eq_true_eq] at hcanc
          omega
        have h1 : (visitAcc acc p v.data).visited.length ≤ k := by
          simp only [visitAcc, List.length_append, List.length_singleton]
          omega
        split
        · simpa [visitAcc] using h1
        · split
          · exact ih rest _ h1
          · split
            · exact ih _ _ (by simpa [expandAcc] using h1)
            · exact ih rest _ h1

/-- A node at the head of the frontier of an uncancellable walk is always
tested against the matcher, whatever canTraverse says about it. -/
lemma bfsGo_head_visited (m : NData → Bool) (o : FindOpts) (hc : o.cancelAfter = none)
    (p : List Nat) (v : VNode) (rest : List (List Nat × VNode)) (acc : Trace) (fuel : Nat) :
    (p, v.data) ∈ (bfsGo m o (fuel + 1) ((p, v) :: rest) acc).visited := by
  have hnc : cancelledAt o acc.visited.length = false := by simp [cancelledAt, hc]
  have hmem : (p, v.data) ∈ (visitAcc acc p v.data).visited := by simp [visitAcc]
  simp only [bfsGo, hnc, Bool.false_eq_true, if_false]
  split
  · exact hmem
  · split
    · exact (bfsGo_le m o fuel rest _).1 _ hmem
    · split
      · exact (bfsGo_le m o fuel _ _).1 _
          ((traceLE_expandAcc o p v (visitAcc acc p v.data)).1 _ hmem)
      · exact (bfsGo_le m o fuel rest _).1 _ hmem

lemma isUnder_iff {p q : List Nat} :
    isUnder p q = true ↔ ∃ r, r ≠ [] ∧ q = p ++ r := by
  simp only [isUnder, decide_eq_true_eq]
  constructor
  · rintro ⟨hlen, htake⟩
    refine ⟨q.drop p.length, ?_, ?_⟩
    · intro hd
      have := congrArg List.length hd
      simp only [List.length_drop, List.length_nil] at this
      omega
    · conv_lhs => rw [← List.take_append_drop p.length q]
      rw [htake]
  · rintro ⟨r, hr, rfl⟩
    constructor
    · simp only [List.length_append]
      have := List.length_pos.mpr hr
      omega
    · exact List.take_left p r

lemma split_concat {α : Type} {l1 l2 l : List α} {e : α} (h : l1 ++ l2 = l ++ [e]) :
    (l1 = l ++ [e] ∧ l2 = []) ∨ ∃ l2', l2 = l2' ++ [e] ∧ l = l1 ++ l2' := by
  rcases List.eq_nil_or_concat l2 with rfl | ⟨l2', x, rfl⟩
  · left; exact ⟨by simpa using h, rfl⟩
  · right
    rw [List.concat_eq_append, ← List.append_assoc] at h
    obtain ⟨h3, h4⟩ := List.append_inj' h rfl
    have hx : x = e := by simpa using h4
    subst hx
    exact ⟨l2', by simp [List.concat_eq_append], h3.symm⟩

lemma enters_append (a b : List GateEv) : enters (a ++ b) = enters a + enters b := by
  simp [enters, List.filter_append]

lemma settles_append (a b : List GateEv) : settles (a ++ b) = settles a + settles b := by
  simp [settles, List.filter_append]

lemma enters_enter (i : Nat) : enters [GateEv.enter i] = 1 := rfl

lemma enters_settled (i : Nat) : enters [GateEv.settled i] = 0 := rfl

lemma settles_enter (i : Nat) : settles [GateEv.enter i] = 0 := rfl

lemma settles_settled (i : Nat) : settles [GateEv.settled i] = 1 := rfl

lemma logOK_nil : logOK [] := by
  intro l1 l2 h
  have h1 : l1 = [] := (List.append_eq_nil.mp h.symm).1
  subst h1
  exact ⟨Nat.le_refl _, Nat.le_succ _⟩

lemma logOK_snoc {l : List GateEv} {e : GateEv} (h : logOK l)
    (he : settles (l ++ [e]) ≤ enters (l ++ [e]) ∧
      enters (l ++ [e]) ≤ settles (l ++ [e]) + 1) :
    logOK (l ++ [e]) := by
  intro l1 l2 hsplit
  rcases split_concat hsplit.symm with ⟨rfl, rfl⟩ | ⟨l2', rfl, rfl⟩
  · exact he
  · exact h l1 l2' rfl

lemma gateInv_start : gateInv gateStart :=
  ⟨logOK_nil, rfl⟩

lemma gateInv_step (s : GateState) (r : GateReq) (h : gateInv s) : gateInv (gateStep s r) := by
  obtain ⟨hok, hbal⟩ := h
  have hfull := hok s.log [] (by simp)
  cases r with
  | request i =>
    cases hf : s.inFlight with
    | none =>
      simp only [gateStep, hf]
      constructor
      · apply logOK_snoc hok
        rw [enters_append, settles_append, enters_enter, settles_enter]
        rw [hf] at hbal
        simp only [flightCount] at hbal
        omega
      · simp only [flightCount, enters_append, settles_append, enters_enter, settles_enter]
        rw [hf] at hbal
        simp only [flightCount] at hbal
        omega
    | some a =>
      simp only [gateStep, hf]
      refine ⟨hok, ?_⟩
      rw [hf] at hbal
      simpa using hbal
  | complete =>
    cases hf : s.inFlight with
    | none =>
      simp only [gateStep, hf]
      exact ⟨hok, hbal⟩
    | some i =>
      rw [hf] at hbal
      simp only [flightCount] at hbal
      cases hp : s.pending with
      | nil =>
        simp only [gateStep, hf, hp]
        constructor
        · apply logOK_snoc hok
          rw [enters_append, settles_append, enters_settled, settles_settled]
          omega
        · simp only [flightCount, enters_append, settles_append, enters_settled, settles_settled]
          omega
      | cons j rest =>
        simp only [gateStep, hf, hp]
        constructor
        · have hassoc : s.log ++ [GateEv.settled i, GateEv.enter j] =
              (s.log ++ [GateEv.settled i]) ++ [GateEv.enter j] := by simp
          rw [hassoc]
          apply logOK_snoc
          · apply logOK_snoc hok
            rw [enters_append, settles_append, enters_settled, settles_settled]
            omega
          · rw [enters_append, settles_append, enters_append, settles_append,
              enters_enter, settles_enter, enters_settled, settles_settled]
            omega
        · simp only [flightCount, enters_append, settles_append]
          have h1 : enters [GateEv.settled i, GateEv.enter j] = 1 := rfl
          have h2 : settles [GateEv.settled i, GateEv.enter j] = 1 := rfl
          rw [h1, h2]
          omega

lemma gateRun_inv (reqs : List GateReq) : gateInv (gateRun reqs) := by
  suffices h : ∀ s, gateInv s → gateInv (reqs.foldl gateStep s) from h gateStart gateInv_start
  induction reqs with
  | nil => intro s h; exact h
  | cons r rs ih => intro s h; exact ih _ (gateInv_step s r h)

lemma settles_eq_zero {l : List GateEv} (h : ∀ k, GateEv.settled k ∉ l) :
    settles l = 0 := by
  induction l with
  | nil => rfl
  | cons e l ih =>
    cases e with
    | enter a =>
      have : settles (GateEv.enter a :: l) = settles l := by simp [settles, List.filter]
      rw [this]
      exact ih fun k hk => h k (List.mem_cons_of_mem _ hk)
    | settled a => exact absurd (List.mem_cons_self _ _) (h a)

/-- Claim C9: when neither the local nor the remote branch-containment
resolution returns a branch containing the target commit, findCommit
resolves to undefined immediately, without invoking the traversal engine:
no node is visited, nothing is materialized and no result is produced. -/
theorem claim_C9 (git : GitAccess) (t : VNode) (repoPath ref : String) (cancel : Option Nat)
    (h1 : git.getCommitBranchesLocal repoPath ref = [])
    (h2 : git.getCommitBranchesRemote repoPath ref = []) :
    findCommit git t repoPath ref cancel = { engineInvoked := false, trace := emptyTrace } ∧
    (findCommit git t repoPath ref cancel).engineInvoked = false ∧
    (findCommit git t repoPath ref cancel).trace.visited = [] ∧
    (findCommit git t repoPath ref cancel).trace.materialized = [] ∧
    (findCommit git t repoPath ref cancel).trace.result = none := by
  have h : findCommit git t repoPath ref cancel = { engineInvoked := false, trace := emptyTrace } := by
    simp [findCommit, h1, h2]
  refine ⟨h, ?_, ?_, ?_, ?_⟩ <;> rw [h] <;> rfl

/-- Witness for claim C9 at a concrete collaborator that knows no containing
branch. -/
theorem claim_C9_witness :
    findCommit gitNone tRoot "r" "c9" none = { engineInvoked := false, trace := emptyTrace } :=
  (claim_C9 gitNone tRoot "r" "c9" none rfl rfl).1

/-- Claim C4: the depth bounds of the query builders match the sizing of the
spec (worktree 2, commit over remote branches 8, tag 5, stash 3, remote 2,
contributor 2, all of the section-scoped builders within 2 and 5), and no
search ever visits a node deeper than its configured maxDepth below the
search root. -/
theorem claim_C4 :
    (∀ rp c, (findWorktreeOpts rp c).maxDepth = 2) ∧
    (∀ rp bs c, (findCommitRemoteOpts rp bs c).maxDepth = 8) ∧
    (∀ rp c, (findTagOpts rp c).maxDepth = 5) ∧
    (∀ rp c, (findStashOpts rp c).maxDepth = 3) ∧
    (∀ rp c, (findRemoteOpts rp c).maxDepth = 2) ∧
    (∀ rp c, (findContributorOpts rp c).maxDepth = 2) ∧
    (∀ rp c,
      2 ≤ (findTagOpts rp c).maxDepth ∧ (findTagOpts rp c).maxDepth ≤ 5 ∧
      2 ≤ (findStashOpts rp c).maxDepth ∧ (findStashOpts rp c).maxDepth ≤ 5 ∧
      2 ≤ (findRemoteOpts rp c).maxDepth ∧ (findRemoteOpts rp c).maxDepth ≤ 5 ∧
      2 ≤ (findContributorOpts rp c).maxDepth ∧ (findContributorOpts rp c).maxDepth ≤ 5 ∧
      2 ≤ (findWorktreeOpts rp c).maxDepth ∧ (findWorktreeOpts rp c).maxDepth ≤ 5) ∧
    (∀ t m o, 1 ≤ o.maxDepth → ∀ x ∈ (findNode t m o).visited, x.1.length ≤ o.maxDepth) := by
  refine ⟨fun _ _ => rfl, fun _ _ _ => rfl, fun _ _ => rfl, fun _ _ => rfl, fun _ _ => rfl,
    fun _ _ => rfl, ?_, ?_⟩
  · intro rp c
    refine ⟨?_, ?_, ?_, ?_, ?_, ?_, ?_, ?_, ?_, ?_⟩ <;> norm_num [findTagOpts, findStashOpts,
      findRemoteOpts, findContributorOpts, findWorktreeOpts]
  · intro t m o h
    exact findNode_depth t m o h

/-- Witness for claim C4: a visited entry of a concrete worktree search
respects the configured bound. -/
theorem claim_C4_witness :
    ([0] : List Nat).length ≤ (findWorktreeOpts "r" none).maxDepth :=
  claim_C4.2.2.2.2.2.2.2 tRoot (fun _ => false) (findWorktreeOpts "r" none) (by decide)
    ([0], dRepo) (by decide)

/-- Claim C10: the branch, commit, remote and tag query builders pass
allowPaging, the contributor, stash and worktree builders omit it, and a
search without allowPaging never requests a page: it only ever visits nodes
reachable through the already-materialized children. -/
theorem claim_C10 :
    (∀ b c, (findBranchRemoteOpts b c).allowPaging = true) ∧
    (∀ b c, (findBranchLocalOpts b c).allowPaging = true) ∧
    (∀ rp ref bs c, (findCommitLocalOpts rp ref bs c).allowPaging = true) ∧
    (∀ rp bs c, (findCommitRemoteOpts rp bs c).allowPaging = true) ∧
    (∀ rp c, (findRemoteOpts rp c).allowPaging = true) ∧
    (∀ rp c, (findTagOpts rp c).allowPaging = true) ∧
    (∀ rp c, (findContributorOpts rp c).allowPaging = false) ∧
    (∀ rp c, (findStashOpts rp c).allowPaging = false) ∧
    (∀ rp c, (findWorktreeOpts rp c).allowPaging = false) ∧
    (∀ t m o, o.allowPaging = false →
      (findNode t m o).pageReqs = [] ∧
      ∀ x ∈ (findNode t m o).visited,
        ∃ v : VNode, nodeAt? false t x.1 = some v ∧ v.data = x.2) := by
  refine ⟨fun _ _ => rfl, fun _ _ => rfl, fun _ _ _ _ => rfl, fun _ _ _ => rfl, fun _ _ => rfl,
    fun _ _ => rfl, fun _ _ => rfl, fun _ _ => rfl, fun _ _ => rfl, ?_⟩
  intro t m o hap
  constructor
  · unfold findNode
    rw [bfsGo_pageReqs m o hap]
    rfl
  · intro x hx
    obtain ⟨v, hvd, hanc⟩ := (findNode_anc t m o).1 x hx
    refine ⟨v, ?_, hvd⟩
    rw [← hap]
    exact hanc.2.1

/-- Witness for claim C10: the concrete worktree search pages nothing. -/
theorem claim_C10_witness :
    (findNode tRoot (fun _ => false) (findWorktreeOpts "r" none)).pageReqs = [] :=
  (claim_C10.2.2.2.2.2.2.2.2.2 tRoot (fun _ => false) (findWorktreeOpts "r" none) rfl).1

/-- Claim C6: every reveal operation checks the result of its underlying
find before revealing: when the find resolves to undefined, the reveal
resolves to undefined and issues no expand, select or focus operation. -/
theorem claim_C6 :
    (∀ t b (o : RevealOptions) c, (findBranchTrace t b c).result = none →
      revealBranch t b o c = (none, [])) ∧
    (∀ t rp (o : RevealOptions), (revealBranchesFindTrace t rp).result = none →
      revealBranches t rp o = (none, [])) ∧
    (∀ git t rp ref (o : RevealOptions) c, (findCommit git t rp ref c).trace.result = none →
      revealCommit git t rp ref o c = (none, [])) ∧
    (∀ t cb (o : RevealOptions) c, (findContributorTrace t cb c).result = none →
      revealContributor t cb o c = (none, [])) ∧
    (∀ t r (o : RevealOptions) c, (findRemoteTrace t r c).result = none →
      revealRemote t r o c = (none, [])) ∧
    (∀ t rp (o : RevealOptions), (revealRepositoryFindTrace t rp).result = none →
      revealRepository t rp o = (none, [])) ∧
    (∀ t s (o : RevealOptions) c, (findStashTrace t s c).result = none →
      revealStash t s o c = (none, [])) ∧
    (∀ t rp (o : RevealOptions), (revealStashesFindTrace t rp).result = none →
      revealStashes t rp o = (none, [])) ∧
    (∀ t tg (o : RevealOptions) c, (findTagTrace t tg c).result = none →
      revealTag t tg o c = (none, [])) ∧
    (∀ t rp (o : RevealOptions), (revealTagsFindTrace t rp).result = none →
      revealTags t rp o = (none, [])) ∧
    (∀ t w (o : RevealOptions) c, (findWorktreeTrace t w c).result = none →
      revealWorktree t w o c = (none, [])) ∧
    (∀ t rp (o : RevealOptions), (revealWorktreesFindTrace t rp).result = none →
      revealWorktrees t rp o = (none, [])) := by
  refine ⟨?_, ?_, ?_, ?_, ?_, ?_, ?_, ?_, ?_, ?_, ?_, ?_⟩ <;> intro _ _ _ <;>
    first
    | (intro h; simp only [revealBranches, revealRepository, revealStashes, revealTags,
        revealWorktrees, revealOutcome, h])
    | (intro _ h; simp only [revealBranch, revealContributor, revealRemote, revealStash,
        revealTag, revealWorktree, revealOutcome, h])
    | (intro _ _ _ h; simp only [revealCommit, revealOutcome, h])

/-- Witness for claim C6: a stash reveal that finds nothing issues no
operation. -/
theorem claim_C6_witness :
    revealStash tRoot { repoPath := "r", ref := "s0" } { } none = (none, []) :=
  claim_C6.2.2.2.2.2.2.1 tRoot { repoPath := "r", ref := "s0" } { } none (by decide)

/-- Claim C7: a search whose token reports cancellation after k visits
accumulates at most k visits, and, as long as no visited node matched, it
resolves to the not-found result rather than an error. -/
theorem claim_C7 (t : VNode) (m : NData → Bool) (o : FindOpts) (k : Nat)
    (hk : o.cancelAfter = some k)
    (hnm : ∀ x ∈ (findNode t m o).visited, m x.2 = false) :
    (findNode t m o).visited.length ≤ k ∧ (findNode t m o).result = none := by
  constructor
  · unfold findNode
    exact bfsGo_cancel_bound m o k hk _ _ _ (by simp [emptyTrace])
  · have h := bfsGo_result m o (vsize t) (attachPaths [] 0 (childrenOf o.allowPaging t)) emptyTrace
    rcases h with h | ⟨x, hx, hmx⟩
    · exact h
    · have hfalse := hnm x hx
      rw [hfalse] at hmx
      exact absurd hmx (by simp)

/-- Witness for claim C7: a cancelled-at-once concrete search visits nothing
and resolves to the not-found result. -/
theorem claim_C7_witness :
    (findNode tRoot (fun _ => false)
      { maxDepth := 5, canTraverse := liftCT fun _ => true, cancelAfter := some 0 }).visited.length ≤ 0 ∧
    (findNode tRoot (fun _ => false)
      { maxDepth := 5, canTraverse := liftCT fun _ => true, cancelAfter := some 0 }).result = none :=
  claim_C7 tRoot (fun _ => false)
    { maxDepth := 5, canTraverse := liftCT fun _ => true, cancelAfter := some 0 } 0 rfl
    (fun _ _ => rfl)

/-- Claim C8: the re-entrancy guard serializes the reveal-with-progress
operations of a view: between the log entries of two operations entering
their walks there is always a settling of the earlier one, and no log prefix
ever has more than one operation entered but not settled. -/
theorem claim_C8 (reqs : List GateReq) (l1 l2 l3 : List GateEv) (i j : Nat)
    (h : (gateRun reqs).log = l1 ++ GateEv.enter i :: (l2 ++ GateEv.enter j :: l3)) :
    (∃ k, GateEv.settled k ∈ l2) ∧
    (∀ l4 l5, (gateRun reqs).log = l4 ++ l5 → enters l4 ≤ settles l4 + 1) := by
  have hinv := gateRun_inv reqs
  constructor
  · by_contra hno
    push_neg at hno
    have hz : settles l2 = 0 := settles_eq_zero hno
    have hshape : (gateRun reqs).log =
        ((l1 ++ [GateEv.enter i]) ++ (l2 ++ [GateEv.enter j])) ++ l3 := by
      rw [h]; simp
    have hb := hinv.1 _ _ hshape
    have hshape1 : (gateRun reqs).log = l1 ++ (GateEv.enter i :: (l2 ++ GateEv.enter j :: l3)) := h
    have hb1 := hinv.1 _ _ hshape1
    simp only [enters_append, settles_append, enters_enter, settles_enter, hz] at hb
    omega
  · intro l4 l5 hsplit
    exact (hinv.1 l4 l5 hsplit).2

/-- Witness for claim C8 on a concrete request schedule: two overlapping
requests are serialized, the second entering only after the first settled. -/
theorem claim_C8_witness :
    ∃ k, GateEv.settled k ∈ [GateEv.settled 1] :=
  (claim_C8 [GateReq.request 1, GateReq.request 2, GateReq.complete, GateReq.complete]
    [] [GateEv.settled 1] [GateEv.settled 2] 1 2 (by decide)).1

/-- Claim C5: for every query builder of the repositories view and every
node, if the canTraverse predicate the builder constructs admits the node,
then the node is the repositories root or its id carries the owning
repository node id as a prefix. -/
theorem claim_C5 (qb : RepoQuery) (n : NData) (h : qb.admits n = true) :
    n.kind = NodeKind.repositories ∨
      strHasPrefix (RepositoryNode.getId qb.repoPath) n.id = true := by
  cases qb <;>
    simp only [RepoQuery.admits, RepoQuery.repoPath, findBranchRemoteCanTraverse,
      findBranchLocalCanTraverse, findCommitLocalCanTraverse, findCommitRemoteCanTraverse,
      findContributorCanTraverse, findRemoteCanTraverse, findStashCanTraverse,
      findTagCanTraverse, findWorktreeCanTraverse, sectionRevealCanTraverse,
      revealRepositoryCanTraverse] at h <;>
    (try split_ifs at h) <;>
    simp_all [RepoQuery.repoPath]

/-- Witness for claim C5: the stash builder admits the repository node of
its own repository. -/
theorem claim_C5_witness :
    dRepo.kind = NodeKind.repositories ∨
      strHasPrefix (RepositoryNode.getId (RepoQuery.stashQ "r").repoPath) dRepo.id = true :=
  claim_C5 (RepoQuery.stashQ "r") dRepo (by decide)

/-- Claim C2: for a remote branch reference, the canTraverse of findBranch
admits a remote node exactly when its id starts with the owning repository
node id and its name equals the remote prefix parsed from the branch name;
the subtree of a remote node it rejects is never visited nor materialized;
and for a local branch reference traversal is admitted only through the
repositories root and, under the owning repository, the repository, branches
and branch-or-tag folder nodes. -/
theorem claim_C2 (branch : GitBranchReference) (hrem : branch.remote = true) :
    (∀ n : NData, n.kind = NodeKind.remote →
      (findBranchRemoteCanTraverse (RepositoryNode.getId branch.repoPath) branch n = true ↔
        (strHasPrefix (RepositoryNode.getId branch.repoPath) n.id = true ∧
          n.remote = some (GitBranch.getRemote branch.name)))) ∧
    (∀ t cancel (p : List Nat) (vp : VNode),
      nodeAt? (findBranchRemoteOpts branch cancel).allowPaging t p = some vp →
      p ≠ [] →
      findBranchRemoteCanTraverse (RepositoryNode.getId branch.repoPath) branch vp.data = false →
      ∀ q, isUnder p q = true →
        (∀ d, (q, d) ∉ (findBranchTrace t branch cancel).visited) ∧
        q ∉ (findBranchTrace t branch cancel).materialized) ∧
    (∀ n : NData, findBranchLocalCanTraverse (RepositoryNode.getId branch.repoPath) n = true →
      n.kind = NodeKind.repositories ∨
        ((n.kind = NodeKind.repository ∨ n.kind = NodeKind.branches ∨
          n.kind = NodeKind.branchOrTagFolder) ∧
          strHasPrefix (RepositoryNode.getId branch.repoPath) n.id = true)) := by
  refine ⟨?_, ?_, ?_⟩
  · intro n hk
    cases hr : n.remote <;> simp [findBranchRemoteCanTraverse, hk, hrem, hr]
  · intro t cancel p vp hat hp hct q hq
    have htr : findBranchTrace t branch cancel =
        findNode t (branchMatcher branch.ref) (findBranchRemoteOpts branch cancel) := by
      simp [findBranchTrace, hrem]
    obtain ⟨r, hrne, rfl⟩ := isUnder_iff.mp hq
    rw [htr]
    constructor
    · intro d hmem
      obtain ⟨v, _, hanc⟩ :=
        (findNode_anc t (branchMatcher branch.ref) (findBranchRemoteOpts branch cancel)).1 _ hmem
      obtain ⟨w, hw1, hw2, _⟩ := hanc.2.2 p r rfl hp hrne
      rw [hat] at hw1
      injection hw1 with hw1
      rw [hw1] at hct
      simp only [findBranchRemoteOpts, liftCT] at hw2
      rw [hct] at hw2
      exact absurd hw2 (by simp)
    · intro hmem
      obtain ⟨v, _, hanc⟩ :=
        (findNode_anc t (branchMatcher branch.ref) (findBranchRemoteOpts branch cancel)).2 _ hmem
      obtain ⟨w, hw1, hw2, _⟩ := hanc.2.2 p r rfl hp hrne
      rw [hat] at hw1
      injection hw1 with hw1
      rw [hw1] at hct
      simp only [findBranchRemoteOpts, liftCT] at hw2
      rw [hct] at hw2
      exact absurd hw2 (by simp)
  · intro n h
    simp only [findBranchLocalCanTraverse] at h
    split_ifs at h <;> simp_all

/-- Witness for claim C2 on the concrete scenario of the spec: searching
origin/feature, the canTraverse admits the origin remote node, rejects the
unrelated upstream remote node, and the subtree below upstream is never
visited. -/
theorem claim_C2_witness :
    (findBranchRemoteCanTraverse (RepositoryNode.getId bOriginFeature.repoPath) bOriginFeature
        dUpstream = true ↔
      (strHasPrefix (RepositoryNode.getId bOriginFeature.repoPath) dUpstream.id = true ∧
        dUpstream.remote = some (GitBranch.getRemote bOriginFeature.name))) ∧
    (∀ d, ([0, 1, 1, 0], d) ∉ (findBranchTrace tRoot bOriginFeature none).visited) := by
  constructor
  · exact (claim_C2 bOriginFeature rfl).1 dUpstream rfl
  · exact ((claim_C2 bOriginFeature rfl).2.1 tRoot none [0, 1, 1] (.node dUpstream [] [])
      rfl (by decide) (by decide) [0, 1, 1, 0] (by decide)).1

/-- The findCommit local canTraverse admits a branch node exactly when the
node id carries the repository prefix and the branch name is among the
branches containing the commit. -/
lemma commitLocalCT_branch_iff (repoNodeId ref : String) (bs : List String) (n : NData)
    (hk : n.kind = NodeKind.branch) :
    (findCommitLocalCanTraverse repoNodeId ref bs n).1 = true ↔
      (strHasPrefix repoNodeId n.id = true ∧
        ∃ b, n.branch = some b ∧ b.name ∈ bs) := by
  cases hb : n.branch <;> simp [findCommitLocalCanTraverse, hk, hb] <;> split_ifs <;> simp_all

/-- On admitting a branch node, the findCommit local canTraverse requests a
load of the branch history up to the searched ref. -/
lemma commitLocalCT_branch_reqs (repoNodeId ref : String) (bs : List String) (n : NData)
    (hk : n.kind = NodeKind.branch)
    (h : (findCommitLocalCanTraverse repoNodeId ref bs n).1 = true) :
    (findCommitLocalCanTraverse repoNodeId ref bs n).2 = [ref] := by
  simp only [findCommitLocalCanTraverse] at h ⊢
  split_ifs at h ⊢ <;> simp_all

/-- Claim C1: findCommit first resolves the local branches containing the
commit and, when some exist, searches with the local options, whose
canTraverse admits a branch node exactly when its id starts with the owning
repository node id and its name is among the resolved branches, requesting
on admission a load of that branch up to the target ref; any descent below
an admitted branch node happens only with that request on the log.  Only
when the local set is empty does findCommit re-resolve against remote
branches, searching with the remote options whose canTraverse additionally
admits exactly the remote nodes carrying the commit. -/
theorem claim_C1 (git : GitAccess) (t : VNode) (repoPath ref : String) (cancel : Option Nat) :
    (git.getCommitBranchesLocal repoPath ref ≠ [] →
      (findCommit git t repoPath ref cancel).engineInvoked = true ∧
      (findCommit git t repoPath ref cancel).trace =
        findNode t (commitMatcher ref)
          (findCommitLocalOpts repoPath ref (git.getCommitBranchesLocal repoPath ref) cancel)) ∧
    (∀ (bs : List String) (n : NData), n.kind = NodeKind.branch →
      ((findCommitLocalCanTraverse (RepositoryNode.getId repoPath) ref bs n).1 = true ↔
        (strHasPrefix (RepositoryNode.getId repoPath) n.id = true ∧
          ∃ b, n.branch = some b ∧ b.name ∈ bs)) ∧
      ((findCommitLocalCanTraverse (RepositoryNode.getId repoPath) ref bs n).1 = true →
        (findCommitLocalCanTraverse (RepositoryNode.getId repoPath) ref bs n).2 = [ref])) ∧
    (∀ (bs : List String) (p : List Nat) (vp : VNode),
      nodeAt? (findCommitLocalOpts repoPath ref bs cancel).allowPaging t p = some vp →
      p ≠ [] →
      vp.data.kind = NodeKind.branch →
      (findCommitLocalCanTraverse (RepositoryNode.getId repoPath) ref bs vp.data).1 = true →
      ∀ q, isUnder p q = true →
        ((∃ d, (q, d) ∈ (findNode t (commitMatcher ref)
            (findCommitLocalOpts repoPath ref bs cancel)).visited) ∨
          q ∈ (findNode t (commitMatcher ref)
            (findCommitLocalOpts repoPath ref bs cancel)).materialized) →
        (p, ref) ∈ (findNode t (commitMatcher ref)
          (findCommitLocalOpts repoPath ref bs cancel)).loadMores) ∧
    (git.getCommitBranchesLocal repoPath ref = [] →
      (git.getCommitBranchesRemote repoPath ref ≠ [] →
        (findCommit git t repoPath ref cancel).engineInvoked = true ∧
        (findCommit git t repoPath ref cancel).trace =
          findNode t (commitMatcher ref)
            (findCommitRemoteOpts repoPath (git.getCommitBranchesRemote repoPath ref) cancel)) ∧
      (∀ n : NData, n.kind = NodeKind.remote →
        (findCommitRemoteCanTraverse (RepositoryNode.getId repoPath)
            (git.getCommitBranchesRemote repoPath ref)
            ((git.getCommitBranchesRemote repoPath ref).map firstSegment) n = true ↔
          (strHasPrefix (RepositoryNode.getId repoPath) n.id = true ∧
            ∃ s, n.remote = some s ∧
              s ∈ (git.getCommitBranchesRemote repoPath ref).map firstSegment)))) := by
  refine ⟨?_, ?_, ?_, ?_⟩
  · intro h
    have hne : (git.getCommitBranchesLocal repoPath ref).isEmpty = false := by
      simpa [List.isEmpty_iff] using h
    constructor <;> simp [findCommit, hne]
  · intro bs n hk
    exact ⟨commitLocalCT_branch_iff (RepositoryNode.getId repoPath) ref bs n hk,
      commitLocalCT_branch_reqs (RepositoryNode.getId repoPath) ref bs n hk⟩
  · intro bs p vp hat hp hk hadmit q hq hocc
    obtain ⟨r, hrne, rfl⟩ := isUnder_iff.mp hq
    have hanc : ∃ v : VNode, ancOK t (findCommitLocalOpts repoPath ref bs cancel) (p ++ r) v
        (findNode t (commitMatcher ref) (findCommitLocalOpts repoPath ref bs cancel)) := by
      rcases hocc with ⟨d, hmem⟩ | hmem
      · obtain ⟨v, _, h⟩ :=
          (findNode_anc t (commitMatcher ref) (findCommitLocalOpts repoPath ref bs cancel)).1 _ hmem
        exact ⟨v, h⟩
      · obtain ⟨v, _, h⟩ :=
          (findNode_anc t (commitMatcher ref) (findCommitLocalOpts repoPath ref bs cancel)).2 _ hmem
        exact ⟨v, h⟩
    obtain ⟨v, hanc⟩ := hanc
    obtain ⟨w, hw1, hw2, hw3⟩ := hanc.2.2 p r rfl hp hrne
    rw [hat] at hw1
    injection hw1 with hw1
    rw [hw1] at hk hadmit
    have hreqs := commitLocalCT_branch_reqs (RepositoryNode.getId repoPath) ref bs w.data hk hadmit
    have := hw3 ref
    simp only [findCommitLocalOpts] at this
    rw [hreqs] at this
    exact this (List.mem_singleton_self ref)
  · intro hloc
    have hloce : (git.getCommitBranchesLocal repoPath ref).isEmpty = true := by
      simp [List.isEmpty_iff, hloc]
    constructor
    · intro h
      have hne : (git.getCommitBranchesRemote repoPath ref).isEmpty = false := by
        simpa [List.isEmpty_iff] using h
      constructor <;> simp [findCommit, hloce, hne]
    · intro n hk
      cases hr : n.remote <;> simp [findCommitRemoteCanTraverse, hk, hr]

/-- Witness for claim C1 on the concrete fixtures: with the feature branch
containing the commit, the engine runs with the local options, and the
loadMore request for the feature branch is on the log once the commit node
below it was visited. -/
theorem claim_C1_witness :
    (findCommit gitFeat tRoot "r" "c1" none).engineInvoked = true ∧
    ([0, 0, 1], "c1") ∈ (findNode tRoot (commitMatcher "c1")
      (findCommitLocalOpts "r" "c1" ["feat"] none)).loadMores := by
  constructor
  · exact ((claim_C1 gitFeat tRoot "r" "c1" none).1 (by decide)).1
  · exact (claim_C1 gitFeat tRoot "r" "c1" none).2.2.1 ["feat"] [0, 0, 1] tFeat rfl
      (by decide) (by decide) (by decide) [0, 0, 1, 0] (by decide)
      (Or.inl ⟨dC1, by decide⟩)

/-- Claim C3: when canTraverse rejects the node at a path, no strict
descendant of that path is ever visited (tested against the matcher) or
materialized by the search; the rejected node itself is nevertheless tested
whenever it reaches the head of the frontier of an uncancelled walk, since
the matcher test precedes the pruning decision. -/
theorem claim_C3 (t : VNode) (m : NData → Bool) (o : FindOpts)
    (p : List Nat) (vp : VNode) (hp : p ≠ [])
    (hat : nodeAt? o.allowPaging t p = some vp)
    (hct : (o.canTraverse vp.data).1 = false) :
    (∀ q, isUnder p q = true →
      (∀ d, (q, d) ∉ (findNode t m o).visited) ∧ q ∉ (findNode t m o).materialized) ∧
    (o.cancelAfter = none →
      ∀ rest acc fuel, (p, vp.data) ∈ (bfsGo m o (fuel + 1) ((p, vp) :: rest) acc).visited) := by
  constructor
  · intro q hq
    obtain ⟨r, hrne, rfl⟩ := isUnder_iff.mp hq
    constructor
    · intro d hmem
      obtain ⟨v, _, hanc⟩ := (findNode_anc t m o).1 _ hmem
      obtain ⟨w, hw1, hw2, _⟩ := hanc.2.2 p r rfl hp hrne
      rw [hat] at hw1
      injection hw1 with hw1
      rw [hw1] at hct
      rw [hct] at hw2
      exact absurd hw2 (by simp)
    · intro hmem
      obtain ⟨v, _, hanc⟩ := (findNode_anc t m o).2 _ hmem
      obtain ⟨w, hw1, hw2, _⟩ := hanc.2.2 p r rfl hp hrne
      rw [hat] at hw1
      injection hw1 with hw1
      rw [hw1] at hct
      rw [hct] at hw2
      exact absurd hw2 (by simp)
  · intro hc rest acc fuel
    exact bfsGo_head_visited m o hc p vp rest acc fuel

/-- Witness for claim C3: pruning the branches section of the concrete tree
hides the main branch below it, while the section node itself is still
tested. -/
theorem claim_C3_witness :
    (∀ d, (([0, 0, 0] : List Nat), d) ∉ (findNode tRoot (fun _ => false) oW3).visited) ∧
    ([0, 0], dBranchesSec) ∈
      (bfsGo (fun _ => false) oW3 1 [([0, 0], tBranchesSec)] emptyTrace).visited := by
  constructor
  · exact ((claim_C3 tRoot (fun _ => false) oW3 [0, 0] tBranchesSec (by decide) rfl
      (by decide)).1 [0, 0, 0] (by decide)).1
  · exact (claim_C3 tRoot (fun _ => false) oW3 [0, 0] tBranchesSec (by decide) rfl
      (by decide)).2 rfl [] emptyTrace 0
